import Mathlib

/-!
Verification of the `corr-solver` oracle layer.

The development shallowly embeds the oracle layer of the repository
(`corr_oracle.py`, `corr_bspline_oracle.py`, `qmi_oracle.py`,
`lsq_corr_oracle.py`, `mle_corr_oracle.py`) over exact rationals.

Vectors are `List ℚ`, matrices are `List (List ℚ)` (row major).
External collaborators (the `ellalgo` package: the LDLT factorization
manager, the LMI oracles and the cutting-plane engine) are out of scope
and appear as explicit function parameters; likewise the floating point
square root `np.sqrt` appears as an explicit function parameter
`sqrt : ℚ → ℚ`, and the transcendental `np.log` of the MLE objective as
`log : ℚ → ℚ`.
-/

/-- Dot product of two rational vectors, `u @ v` in numpy. -/
def dotQ (u v : List ℚ) : ℚ := (List.zipWith (· * ·) u v).sum

/-- Elementwise difference of two vectors. -/
def vsub (u v : List ℚ) : List ℚ := List.zipWith (· - ·) u v

/-- Scalar times vector. -/
def vsmul (c : ℚ) (v : List ℚ) : List ℚ := v.map (fun a => c * a)

/-- Sum of a list of length-`n` vectors (python `sum` over arrays). -/
def vecSum (n : ℕ) (l : List (List ℚ)) : List ℚ :=
  l.foldr (fun v acc => List.zipWith (· + ·) v acc) (List.replicate n 0)

/-- Column `i` of a row-major matrix, `M[:, i]` in numpy. -/
def colQ (M : List (List ℚ)) (i : ℕ) : List ℚ := M.map (fun r => r.getD i 0)

/-- Row `i` of a row-major matrix, `M[i, :]` in numpy. -/
def rowQ (M : List (List ℚ)) (i : ℕ) : List ℚ := M.getD i []

/-- Entry `(i, j)` of a row-major matrix. -/
def entryOf (M : List (List ℚ)) (i j : ℕ) : ℚ := (M.getD i []).getD j 0

/-- Matrix transpose. -/
def transposeQ (M : List (List ℚ)) : List (List ℚ) :=
  (List.range (M.headD []).length).map (fun j => colQ M j)

/-- Matrix product `A @ B`. -/
def matMulQ (A B : List (List ℚ)) : List (List ℚ) :=
  A.map (fun r => (List.range (B.headD []).length).map (fun j => dotQ r (colQ B j)))

/-- Trace of a square matrix. -/
def traceQ (M : List (List ℚ)) : ℚ :=
  ((List.range M.length).map (fun i => entryOf M i i)).sum

/-- Diagonal of a square matrix, `np.diag`. -/
def diagQ (M : List (List ℚ)) : List ℚ :=
  (List.range M.length).map (fun i => entryOf M i i)

/-- Embedding of `mono_oracle`'s scan (corr_bspline_oracle.py lines 60-64):
the first index `i` with `x[i+1] - x[i] > 0` together with the positive
difference, or `none` when the sequence is monotone decreasing. -/
def firstViolation : List ℚ → Option (ℕ × ℚ)
  | [] => none
  | [_] => none
  | a :: b :: rest =>
      if b - a > 0 then some (0, b - a)
      else (firstViolation (b :: rest)).map (fun p => (p.1 + 1, p.2))
termination_by structural x => x

/-- Embedding of `mono_oracle` (corr_bspline_oracle.py lines 45-64): on the
first monotonicity violation returns the gradient `g` (zeros with `g[i] = -1`,
`g[i+1] = 1`) and the violation value `x[i+1] - x[i]`; returns `none`
(python falls off the loop) when `x` is monotone decreasing. -/
def mono_oracle (x : List ℚ) : Option (List ℚ × ℚ) :=
  (firstViolation x).map
    (fun p => (((List.replicate x.length (0 : ℚ)).set p.1 (-1)).set (p.1 + 1) 1, p.2))

/-- Embedding of `mono_decreasing_oracle2.assess_optim`
(corr_bspline_oracle.py lines 86-107): if `mono_oracle` finds a violation on
`x[:-1]`, return it padded with a zero last gradient entry and no incumbent;
otherwise delegate to the wrapped basis oracle (a function parameter). -/
def mono_decreasing_assess_optim
    (basis : List ℚ → ℚ → (List ℚ × ℚ) × Option ℚ)
    (x : List ℚ) (t : ℚ) : (List ℚ × ℚ) × Option ℚ :=
  match mono_oracle x.dropLast with
  | some (g1, fj) => ((g1 ++ [0], fj), none)
  | none => basis x t

lemma getD_set_self {α : Type} (l : List α) (i : ℕ) (v d : α) (h : i < l.length) :
    (l.set i v).getD i d = v := by
  simp [List.getD_eq_getElem?_getD, List.getElem?_set_self h]

lemma getD_set_ne {α : Type} (l : List α) (i j : ℕ) (v d : α) (h : i ≠ j) :
    (l.set i v).getD j d = l.getD j d := by
  simp [List.getD_eq_getElem?_getD, List.getElem?_set_ne h]

lemma getD_replicate_zero (n i : ℕ) (hi : i < n) :
    (List.replicate n (0 : ℚ)).getD i 0 = 0 := by
  simp [List.getD_eq_getElem?_getD, List.getElem?_replicate, hi]

lemma firstViolation_none_iff (x : List ℚ) :
    firstViolation x = none ↔
      ∀ i, i + 1 < x.length → x.getD (i + 1) 0 ≤ x.getD i 0 := by
  induction x with
  | nil => simp [firstViolation]
  | cons a tl ih =>
    cases tl with
    | nil =>
      constructor
      · intro _ i hi
        exfalso
        simp at hi
      · intro _
        rfl
    | cons b rest =>
      by_cases hab : b - a > 0
      · simp only [firstViolation, if_pos hab]
        constructor
        · intro h; cases h
        · intro h
          have := h 0 (by simp)
          simp [List.getD] at this
          exfalso; linarith
      · simp only [firstViolation, if_neg hab, Option.map_eq_none']
        rw [ih]
        constructor
        · intro h i hi
          cases i with
          | zero =>
            simp [List.getD]
            linarith [not_lt.mp hab]
          | succ i' =>
            have := h i' (by simpa using hi)
            simpa [List.getD] using this
        · intro h i hi
          have := h (i + 1) (by simpa using hi)
          simpa [List.getD] using this

lemma firstViolation_some (x : List ℚ) (i : ℕ) (v : ℚ)
    (h : firstViolation x = some (i, v)) :
    i + 1 < x.length ∧ x.getD i 0 < x.getD (i + 1) 0 ∧
      v = x.getD (i + 1) 0 - x.getD i 0 ∧
      ∀ j, j < i → x.getD (j + 1) 0 ≤ x.getD j 0 := by
  induction x generalizing i v with
  | nil => simp [firstViolation] at h
  | cons a tl ih =>
    cases tl with
    | nil => simp [firstViolation] at h
    | cons b rest =>
      by_cases hab : b - a > 0
      · simp only [firstViolation, if_pos hab, Option.some_inj] at h
        obtain ⟨hi, hv⟩ := Prod.mk.inj h
        subst hi
        refine ⟨by simp, ?_, ?_, ?_⟩
        · simp [List.getD]; linarith
        · simp [List.getD]; linarith [hv]
        · intro j hj; omega
      · simp only [firstViolation, if_neg hab, Option.map_eq_some'] at h
        obtain ⟨⟨i', w⟩, hfv, heq⟩ := h
        obtain ⟨rfl, rfl⟩ := Prod.mk.inj heq
        obtain ⟨h1, h2, h3, h4⟩ := ih i' w hfv
        refine ⟨by simpa using h1, by simpa [List.getD] using h2,
          by simpa [List.getD] using h3, ?_⟩
        intro j hj
        cases j with
        | zero =>
          simp [List.getD]
          linarith [not_lt.mp hab]
        | succ j' =>
          have := h4 j' (by omega)
          simpa [List.getD] using this

/-- C5: `mono_oracle(x)` returns `none` exactly when `x` is non-increasing on
adjacent pairs; otherwise it returns the cut at the smallest violated index
`i`, with gradient `-1` at `i`, `+1` at `i+1`, `0` elsewhere, and value
`x[i+1] - x[i]`. -/
theorem mono_oracle_spec (x : List ℚ) :
    (mono_oracle x = none ↔
      ∀ i, i + 1 < x.length → x.getD (i + 1) 0 ≤ x.getD i 0) ∧
    (∀ g v, mono_oracle x = some (g, v) →
      ∃ i, i + 1 < x.length ∧ x.getD i 0 < x.getD (i + 1) 0 ∧
        (∀ j, j < i → x.getD (j + 1) 0 ≤ x.getD j 0) ∧
        v = x.getD (i + 1) 0 - x.getD i 0 ∧
        g.length = x.length ∧ g.getD i 0 = -1 ∧ g.getD (i + 1) 0 = 1 ∧
        ∀ j, j < g.length → j ≠ i → j ≠ i + 1 → g.getD j 0 = 0) := by
  constructor
  · rw [mono_oracle, Option.map_eq_none']
    exact firstViolation_none_iff x
  · intro g v h
    rw [mono_oracle, Option.map_eq_some'] at h
    obtain ⟨⟨i, w⟩, hfv, heq⟩ := h
    obtain ⟨rfl, rfl⟩ := Prod.mk.inj heq
    obtain ⟨h1, h2, h3, h4⟩ := firstViolation_some x i w hfv
    have hlen :
        (((List.replicate x.length (0 : ℚ)).set i (-1)).set (i + 1) 1).length
          = x.length := by simp
    refine ⟨i, h1, h2, h4, h3, hlen, ?_, ?_, ?_⟩
    · rw [getD_set_ne _ _ _ _ _ (by omega)]
      exact getD_set_self _ _ _ _ (by simp; omega)
    · exact getD_set_self _ _ _ _ (by simp; omega)
    · intro j hj hji hji1
      rw [getD_set_ne _ _ _ _ _ (by omega), getD_set_ne _ _ _ _ _ (by omega)]
      exact getD_replicate_zero _ _ (by rw [hlen] at hj; exact hj)

/-- Witness for C5: on `x = [3, 2, 1]` (monotone decreasing) the theorem's
first part yields the adjacent inequality at index 0, and on `x = [1, 3, 2]`
its second part locates a concrete violation. -/
theorem mono_oracle_spec_witness :
    ([(3 : ℚ), 2, 1]).getD 1 0 ≤ ([(3 : ℚ), 2, 1]).getD 0 0 ∧
    ∃ i, i + 1 < ([(1 : ℚ), 3, 2]).length ∧
      ([(1 : ℚ), 3, 2]).getD i 0 < ([(1 : ℚ), 3, 2]).getD (i + 1) 0 := by
  constructor
  · exact (mono_oracle_spec [(3 : ℚ), 2, 1]).1.mp
      (by norm_num [mono_oracle, firstViolation, List.replicate]) 0 (by norm_num)
  · obtain ⟨i, h1, h2, -⟩ :=
      (mono_oracle_spec [(1 : ℚ), 3, 2]).2 [(-1 : ℚ), 1, 0] 2
        (by norm_num [mono_oracle, firstViolation, List.replicate])
    exact ⟨i, h1, h2⟩

/-- Errors surfaced by the python `QMI.eval`: the explicit
`raise AssertionError()` for an above-diagonal access (qmi_oracle.py line
68-69), and the `TypeError` that `self.t + a` raises when `self.t` is still
`None` (line 77). -/
inductive QMIErr where
  | assertionError : QMIErr
  | typeError : QMIErr
deriving DecidableEq

/-- State of the inner `QMIOracle.QMI` object (qmi_oracle.py lines 15-45):
basis matrices `F` (each n×m, accessed by columns), the reference matrix
`F0` (n×m), the threshold `t` (class default `None`), the highest-row
counter `count` (class default `0`) and the row cache `Fx` (m×n, zeros at
construction). -/
structure QMI where
  F : List (List (List ℚ))
  F0 : List (List ℚ)
  t : Option ℚ
  count : ℕ
  Fx : List (List ℚ)

/-- Embedding of `QMI.__init__` (qmi_oracle.py lines 31-45) together with
the class attributes `t = None`, `count = 0` (lines 28-29): `Fx` is the
`np.zeros([m, n])` cache with `n, m = F0.shape`. -/
def QMI.init (F : List (List (List ℚ))) (F0 : List (List ℚ)) : QMI :=
  { F := F, F0 := F0, t := none, count := 0,
    Fx := List.replicate (F0.headD []).length (List.replicate F0.length 0) }

/-- Embedding of `QMI.update` (qmi_oracle.py lines 47-54): stores the new
threshold. -/
def QMI.update (q : QMI) (t0 : ℚ) : QMI := { q with t := some t0 }

/-- Row `i` of `F(x) = F0 - (F1*x1 + F2*x2 + ...)` as computed by
qmi_oracle.py lines 71-74: `Fx[i] = F0[:, i] - sum(F[k][:, i] * x[k] for k
in range(len(x)))`. -/
def fxRow (F : List (List (List ℚ))) (F0 : List (List ℚ)) (x : List ℚ)
    (i : ℕ) : List ℚ :=
  vsub (colQ F0 i)
    (vecSum (colQ F0 i).length
      ((List.range x.length).map (fun k => vsmul (x.getD k 0) (colQ (F.getD k []) i))))

/-- Cache refresh step of `QMI.eval` (qmi_oracle.py lines 70-74): when the
highest-row counter has not yet reached row `i`, set it to `i + 1` and
recompute the cached row `Fx[i]`; otherwise leave the state untouched. -/
def cacheStep (q : QMI) (i : ℕ) (x : List ℚ) : QMI :=
  if q.count < i + 1 then
    { q with count := i + 1, Fx := q.Fx.set i (fxRow q.F q.F0 x i) }
  else q

/-- Embedding of `QMI.eval` (qmi_oracle.py lines 56-78). The python method
first asserts `i ≥ j`, then refreshes the row cache (`cacheStep`), computes
`a = -(Fx[i] @ Fx[j])`, and returns `t + a` on the diagonal (raising
`TypeError` when `t` is still `None`) and `a` off the diagonal. The python
`TypeError` is raised after the cache mutation; the mutated state is
unused thereafter, so the error branch here drops it. -/
def QMI.eval (q : QMI) (i j : ℕ) (x : List ℚ) : Except QMIErr (ℚ × QMI) :=
  if i < j then .error .assertionError
  else
    let q1 := cacheStep q i x
    let a : ℚ := -(dotQ (q1.Fx.getD i []) (q1.Fx.getD j []))
    if i = j then
      match q.t with
      | none => .error .typeError
      | some t0 => .ok (t0 + a, q1)
    else .ok (a, q1)

/-- Embedding of the state effect of `QMIOracle.assess_feas`
(qmi_oracle.py line 130): `self.qmi.count = 0` before handing the element
callback to the external factorization engine. -/
def QMIOracle.resetPass (q : QMI) : QMI := { q with count := 0 }

/-- Coherence of the row cache: every row strictly below the highest-row
counter holds the affine row of `F(x)` for the current iterate `x`. -/
def cacheCoherent (q : QMI) (x : List ℚ) : Prop :=
  ∀ i, i < q.count → q.Fx.getD i [] = fxRow q.F q.F0 x i

/-- C9: `QMI.eval` raises (the embedded `AssertionError`) whenever
`row < col`; an above-diagonal access is never evaluated. -/
theorem qmi_eval_above_diagonal_raises (q : QMI) (i j : ℕ) (x : List ℚ)
    (h : i < j) : q.eval i j x = .error .assertionError := by
  simp [QMI.eval, h]

/-- Witness for C9: the concrete access `(row, col) = (0, 1)` on a freshly
constructed oracle errors. -/
theorem qmi_eval_above_diagonal_raises_witness :
    (QMI.init [] [[1]]).eval 0 1 [] = .error .assertionError :=
  qmi_eval_above_diagonal_raises (QMI.init [] [[1]]) 0 1 [] (by decide)

/-- C10: the threshold starts as `None` and is assigned only by `update`;
evaluating any diagonal element while it is unset raises (the embedded
`TypeError` from `None + float`), whereas a strictly below-diagonal element
evaluates without touching `t`; and the reset performed by
`QMIOracle.assess_feas` zeroes only the row-cache counter, never `t`. -/
theorem qmi_threshold_uninitialized (F : List (List (List ℚ)))
    (F0 : List (List ℚ)) (q : QMI) (i j : ℕ) (x : List ℚ) :
    (QMI.init F F0).t = none ∧
    (∀ t0, (q.update t0).t = some t0) ∧
    (q.t = none → q.eval i i x = .error .typeError) ∧
    (j < i → q.t = none → ∃ r, q.eval i j x = .ok r) ∧
    (QMIOracle.resetPass q).count = 0 ∧ (QMIOracle.resetPass q).t = q.t := by
  refine ⟨rfl, fun t0 => rfl, ?_, ?_, rfl, rfl⟩
  · intro ht
    simp [QMI.eval, ht]
  · intro hji _
    simp only [QMI.eval, if_neg (show ¬i < j by omega),
      if_neg (show ¬i = j by omega)]
    exact ⟨_, rfl⟩

lemma cacheStep_count (q : QMI) (i : ℕ) (x : List ℚ) :
    (cacheStep q i x).count = max q.count (i + 1) := by
  unfold cacheStep
  by_cases hc : q.count < i + 1
  · rw [if_pos hc]
    show i + 1 = max q.count (i + 1)
    omega
  · rw [if_neg hc]
    show q.count = max q.count (i + 1)
    omega

lemma cacheStep_t (q : QMI) (i : ℕ) (x : List ℚ) :
    (cacheStep q i x).t = q.t := by
  unfold cacheStep
  split <;> rfl

lemma cacheStep_F (q : QMI) (i : ℕ) (x : List ℚ) :
    (cacheStep q i x).F = q.F := by
  unfold cacheStep
  split <;> rfl

lemma cacheStep_F0 (q : QMI) (i : ℕ) (x : List ℚ) :
    (cacheStep q i x).F0 = q.F0 := by
  unfold cacheStep
  split <;> rfl

lemma cacheStep_Fx_of_lt (q : QMI) (i : ℕ) (x : List ℚ) (h : i < q.count) :
    (cacheStep q i x).Fx = q.Fx := by
  unfold cacheStep
  rw [if_neg (by omega)]

lemma cacheStep_coherent (q : QMI) (i : ℕ) (x : List ℚ)
    (hcount : i ≤ q.count) (hlen : i < q.Fx.length)
    (hcoh : cacheCoherent q x) : cacheCoherent (cacheStep q i x) x := by
  intro r hr
  rw [cacheStep_F, cacheStep_F0]
  rw [cacheStep_count] at hr
  unfold cacheStep
  by_cases hc : q.count < i + 1
  · rw [if_pos hc]
    simp only
    rcases Nat.lt_or_ge r i with hri | hri
    · rw [getD_set_ne _ _ _ _ _ (by omega)]
      exact hcoh r (by omega)
    · have : r = i := by omega
      subst this
      exact getD_set_self _ _ _ _ hlen
  · rw [if_neg hc]
    exact hcoh r (by omega)

/-- C3: under the factorization access pattern (rows visited in
non-decreasing order, captured by `i ≤ count`, with a coherent cache for the
current iterate), `QMI.eval` returns `-(Fx[i] · Fx[j])` with the threshold
added exactly on the diagonal, where `Fx[r] = F0[:, r] - Σ_k x[k]·F[k][:, r]`;
the cache row is recomputed only when the counter is below `i + 1` (so at
most once per row per pass — when `i < count` the cache is untouched), the
counter advances to `max count (i + 1)`, coherence is preserved, and
`QMIOracle.assess_feas` starts each pass by resetting the counter to zero. -/
theorem qmi_eval_lazy_cached (q : QMI) (i j : ℕ) (x : List ℚ) (t0 : ℚ)
    (ht : q.t = some t0) (hji : j ≤ i) (hcount : i ≤ q.count)
    (hlen : i < q.Fx.length) (hcoh : cacheCoherent q x) :
    ∃ q1,
      q.eval i j x =
        .ok ((if i = j then t0 else 0)
              + -(dotQ (fxRow q.F q.F0 x i) (fxRow q.F q.F0 x j)), q1) ∧
      q1.count = max q.count (i + 1) ∧ q1.t = q.t ∧
      q1.F = q.F ∧ q1.F0 = q.F0 ∧ cacheCoherent q1 x ∧
      (i < q.count → q1.Fx = q.Fx) ∧
      (QMIOracle.resetPass q1).count = 0 := by
  have hnotlt : ¬i < j := Nat.not_lt.mpr hji
  have hcoh1 := cacheStep_coherent q i x hcount hlen hcoh
  have hcnt := cacheStep_count q i x
  have hrowi : (cacheStep q i x).Fx.getD i [] = fxRow q.F q.F0 x i := by
    have := hcoh1 i (by omega)
    rwa [cacheStep_F, cacheStep_F0] at this
  have hrowj : (cacheStep q i x).Fx.getD j [] = fxRow q.F q.F0 x j := by
    have := hcoh1 j (by omega)
    rwa [cacheStep_F, cacheStep_F0] at this
  refine ⟨cacheStep q i x, ?_, hcnt, cacheStep_t q i x, cacheStep_F q i x,
    cacheStep_F0 q i x, hcoh1, cacheStep_Fx_of_lt q i x, rfl⟩
  by_cases hij : i = j
  · subst hij
    simp only [QMI.eval, if_neg hnotlt, ht, if_pos rfl, hrowi,
      eq_self_iff_true, if_true]
  · simp only [QMI.eval, if_neg hnotlt, if_neg hij, hrowi, hrowj, zero_add]

/-- Witness for C3: a concrete 1×2 system with threshold 5, iterate
`x = [2]`, evaluated at the diagonal element `(0, 0)` just after a pass
reset. -/
theorem qmi_eval_lazy_cached_witness :
    ∃ q1,
      (QMIOracle.resetPass ((QMI.init [[[3, 4]]] [[1, 2]]).update 5)).eval 0 0 [2] =
        .ok ((if (0 : ℕ) = 0 then (5 : ℚ) else 0)
              + -(dotQ (fxRow [[[3, 4]]] [[1, 2]] [2] 0)
                       (fxRow [[[3, 4]]] [[1, 2]] [2] 0)), q1) := by
  obtain ⟨q1, h, -⟩ :=
    qmi_eval_lazy_cached
      (QMIOracle.resetPass ((QMI.init [[[3, 4]]] [[1, 2]]).update 5)) 0 0 [2] 5
      rfl (Nat.le_refl 0) (Nat.le_refl 0) (by decide)
      (fun r hr => absurd hr (Nat.not_lt_zero r))
  exact ⟨q1, h⟩

/-- Witness for C10: on a freshly constructed oracle (threshold still unset)
the diagonal access `(1, 1)` errors and the below-diagonal access `(1, 0)`
succeeds. -/
theorem qmi_threshold_uninitialized_witness :
    (QMI.init [] [[(1 : ℚ)]]).eval 1 1 [] = .error .typeError ∧
    ∃ r, (QMI.init [] [[(1 : ℚ)]]).eval 1 0 [] = .ok r := by
  obtain ⟨-, -, h3, h4, -, -⟩ :=
    qmi_threshold_uninitialized [] [[(1 : ℚ)]] (QMI.init [] [[(1 : ℚ)]]) 1 0 []
  exact ⟨h3 rfl, h4 (by decide) rfl⟩

/-- Embedding of `lsq_oracle.assess_optim` (lsq_corr_oracle.py lines 67-106).
The two sub-oracles are function parameters standing for the external
`ellalgo` objects: `lmi0` is `LMI0Oracle(F).assess_feas`, and `qmi`
combines `QMIOracle.update(x[-1])` with `QMIOracle.assess_feas(x[:-1])`; on
infeasibility `qmi` also yields the factorization manager's `pos` pair and
`wit` vector, which the python code reads from `self.qmi.ldlt_mgr` after
calling `witness()`. The numpy writes `g[:-1] = g1; g[-1] = v` are embedded
as `g1 ++ [v]`, and the feasible branch's `np.zeros(n)` with `g[-1] = 1` as
`replicate (n-1) 0 ++ [1]`. -/
def lsq_assess_optim (lmi0 : List ℚ → Option (List ℚ × ℚ))
    (qmi : ℚ → List ℚ → Option ((List ℚ × ℚ) × (ℕ × ℕ) × List ℚ))
    (x : List ℚ) (t : ℚ) : (List ℚ × ℚ) × Option ℚ :=
  match lmi0 x.dropLast with
  | some (g1, fj) => ((g1 ++ [0], fj), none)
  | none =>
    match qmi (x.getLastD 0) x.dropLast with
    | some ((g1, fj), (s, e), wit) =>
        let w := (wit.drop s).take (e - s)
        ((g1 ++ [-(dotQ w w)], fj), none)
    | none =>
        let tc := x.getLastD 0
        if tc - t > 0 then ((List.replicate (x.length - 1) 0 ++ [1], tc - t), none)
        else ((List.replicate (x.length - 1) 0 ++ [1], 0), some tc)

lemma getD_append_last (l : List ℚ) (v : ℚ) :
    (l ++ [v]).getD l.length 0 = v := by
  rw [List.getD_eq_getElem?_getD, List.getElem?_append_right (Nat.le_refl _)]
  simp

lemma getD_append_left (l l2 : List ℚ) (j : ℕ) (hj : j < l.length) :
    (l ++ l2).getD j 0 = l.getD j 0 := by
  rw [List.getD_eq_getElem?_getD, List.getElem?_append, if_pos hj,
    List.getD_eq_getElem?_getD]

/-- C1: when both the plain-PSD check on `x[:-1]` and the QMI check at
threshold `x[-1]` pass, `lsq_oracle.assess_optim` returns the unit gradient
on the appended coordinate; with cut value `x[-1] - t` and no incumbent when
`x[-1] - t > 0` strictly, else cut value `0` and `x[-1]` as new incumbent. -/
theorem lsq_assess_optim_both_feasible
    (lmi0 : List ℚ → Option (List ℚ × ℚ))
    (qmi : ℚ → List ℚ → Option ((List ℚ × ℚ) × (ℕ × ℕ) × List ℚ))
    (x : List ℚ) (t : ℚ) (hx : x ≠ [])
    (h0 : lmi0 x.dropLast = none)
    (h1 : qmi (x.getLastD 0) x.dropLast = none) :
    (lsq_assess_optim lmi0 qmi x t).1.1.length = x.length ∧
    (lsq_assess_optim lmi0 qmi x t).1.1.getD (x.length - 1) 0 = 1 ∧
    (∀ j, j < x.length - 1 → (lsq_assess_optim lmi0 qmi x t).1.1.getD j 0 = 0) ∧
    (x.getLastD 0 - t > 0 →
      (lsq_assess_optim lmi0 qmi x t).1.2 = x.getLastD 0 - t ∧
      (lsq_assess_optim lmi0 qmi x t).2 = none) ∧
    (¬(x.getLastD 0 - t > 0) →
      (lsq_assess_optim lmi0 qmi x t).1.2 = 0 ∧
      (lsq_assess_optim lmi0 qmi x t).2 = some (x.getLastD 0)) := by
  have hxlen : 1 ≤ x.length := by
    cases x with
    | nil => exact absurd rfl hx
    | cons a l => simp
  have hrep : (List.replicate (x.length - 1) (0 : ℚ)).length = x.length - 1 := by
    simp
  unfold lsq_assess_optim
  rw [h0, h1]
  by_cases hpos : x.getLastD 0 - t > 0
  · rw [if_pos hpos]
    refine ⟨by simp; omega, ?_, ?_, fun _ => ⟨rfl, rfl⟩, fun h => absurd hpos h⟩
    · have h := getD_append_last (List.replicate (x.length - 1) (0 : ℚ)) 1
      rwa [hrep] at h
    · intro j hj
      rw [getD_append_left _ _ _ (by omega)]
      exact getD_replicate_zero _ _ hj
  · rw [if_neg hpos]
    refine ⟨by simp; omega, ?_, ?_, fun h => absurd h hpos, fun _ => ⟨rfl, rfl⟩⟩
    · have h := getD_append_last (List.replicate (x.length - 1) (0 : ℚ)) 1
      rwa [hrep] at h
    · intro j hj
      rw [getD_append_left _ _ _ (by omega)]
      exact getD_replicate_zero _ _ hj

/-- Witness for C1: both sub-oracles feasible on `x = [4, 7]`, incumbent 3
(ascent branch) — extracted: the cut value is `7 - 3` with no incumbent. -/
theorem lsq_assess_optim_both_feasible_witness :
    (lsq_assess_optim (fun _ => none) (fun _ _ => none) [4, 7] 3).1.2 =
      ([(4 : ℚ), 7]).getLastD 0 - 3 ∧
    (lsq_assess_optim (fun _ => none) (fun _ _ => none) [4, 7] 3).2 = none := by
  obtain ⟨-, -, -, h4, -⟩ :=
    lsq_assess_optim_both_feasible (fun _ => none) (fun _ _ => none)
      [4, 7] 3 (by simp) rfl rfl
  exact h4 (by norm_num)

/-- C2: when the plain-PSD check passes but the QMI check at threshold
`x[-1]` fails, `lsq_oracle.assess_optim` returns no incumbent and a cut
whose value is the QMI cut's value, whose first `len(x)-1` coordinates are
the QMI gradient, and whose last coordinate is `-(w·w)` for the witness
vector restricted to the manager's active range `[s, e)`. -/
theorem lsq_assess_optim_qmi_infeasible
    (lmi0 : List ℚ → Option (List ℚ × ℚ))
    (qmi : ℚ → List ℚ → Option ((List ℚ × ℚ) × (ℕ × ℕ) × List ℚ))
    (x : List ℚ) (t : ℚ) (g1 : List ℚ) (fj : ℚ) (s e : ℕ) (wit : List ℚ)
    (hx : x ≠ []) (hg : g1.length = x.length - 1)
    (h0 : lmi0 x.dropLast = none)
    (h1 : qmi (x.getLastD 0) x.dropLast = some ((g1, fj), (s, e), wit)) :
    (lsq_assess_optim lmi0 qmi x t).2 = none ∧
    (lsq_assess_optim lmi0 qmi x t).1.2 = fj ∧
    (lsq_assess_optim lmi0 qmi x t).1.1.take (x.length - 1) = g1 ∧
    (lsq_assess_optim lmi0 qmi x t).1.1.getD (x.length - 1) 0 =
      -(dotQ ((wit.drop s).take (e - s)) ((wit.drop s).take (e - s))) := by
  unfold lsq_assess_optim
  rw [h0, h1]
  refine ⟨rfl, rfl, ?_, ?_⟩
  · rw [← hg, List.take_left]
  · have h := getD_append_last g1
      (-(dotQ ((wit.drop s).take (e - s)) ((wit.drop s).take (e - s))))
    rwa [hg] at h

/-- Witness for C2: `x = [4, 7]`, QMI infeasible with gradient `[6]`, value
`9`, active range `[0, 1)` and witness vector `[2, 5]`; the combined cut is
`([6, -4], 9)` with no incumbent. -/
theorem lsq_assess_optim_qmi_infeasible_witness :
    (lsq_assess_optim (fun _ => none)
        (fun _ _ => some (([6], 9), (0, 1), [2, 5])) [4, 7] 3).2 = none ∧
    (lsq_assess_optim (fun _ => none)
        (fun _ _ => some (([6], 9), (0, 1), [2, 5])) [4, 7] 3).1.2 = 9 ∧
    (lsq_assess_optim (fun _ => none)
        (fun _ _ => some (([6], 9), (0, 1), [2, 5])) [4, 7] 3).1.1.take 1 = [6] := by
  obtain ⟨ha, hb, hc, -⟩ :=
    lsq_assess_optim_qmi_infeasible (fun _ => none)
      (fun _ _ => some (([6], 9), (0, 1), [2, 5])) [4, 7] 3 [6] 9 0 1 [2, 5]
      (by simp) rfl rfl rfl
  exact ⟨ha, hb, hc⟩

/-- Embedding of `mle_oracle.assess_optim` (mle_corr_oracle.py lines 57-95).
The two feasibility sub-oracles (`LMIOracle(Sigma, 2Y)` and
`LMI0Oracle(Sigma)` from `ellalgo`) are the parameters `lmi` and `lmi0`;
`R` stands for `self.lmi0.ldlt_mgr.sqrt()` (the square-root factor retained
by the external factorization manager after the successful `lmi0` check),
`inv` for `np.linalg.inv`, and `log` for `np.log`. Faithfully to lines
78-95: `S = invR @ invR.T`, `SY = S @ Y`,
`f1 = 2*sum(log(diag(R))) + trace(SY)`, and for each basis index the
gradient entry `trace(S @ Sigma[i]) - Σ_k (S @ Sigma[i])[k, :] @ SY[:, k]`;
the ascent branch fires when `f1 - t ≥ 0`. -/
def mle_assess_optim (lmi lmi0 : List ℚ → Option (List ℚ × ℚ))
    (R : List (List ℚ)) (inv : List (List ℚ) → List (List ℚ))
    (log : ℚ → ℚ) (Sigma : List (List (List ℚ))) (Y : List (List ℚ))
    (x : List ℚ) (t : ℚ) : (List ℚ × ℚ) × Option ℚ :=
  match lmi x with
  | some cut => (cut, none)
  | none =>
    match lmi0 x with
    | some cut => (cut, none)
    | none =>
      let invR := inv R
      let S := matMulQ invR (transposeQ invR)
      let SY := matMulQ S Y
      let f1 := 2 * ((diagQ R).map log).sum + traceQ SY
      let g := (List.range x.length).map (fun i =>
        let SFsi := matMulQ S (Sigma.getD i [])
        traceQ SFsi -
          ((List.range Y.length).map (fun k => dotQ (rowQ SFsi k) (colQ SY k))).sum)
      if f1 - t ≥ 0 then ((g, f1 - t), none) else ((g, 0), some f1)

/-- C4: when both LMI checks pass, `mle_oracle.assess_optim` computes
`f1 = 2·Σ log(diag R) + Tr(S·Y)` with `S = (R⁻¹)(R⁻¹)ᵀ`, and returns the
ascent cut `(g, f1 - t)` with no incumbent when `f1 - t ≥ 0` (equality
included), else `(g, 0)` with `f1` as the new incumbent. -/
theorem mle_assess_optim_both_feasible
    (lmi lmi0 : List ℚ → Option (List ℚ × ℚ)) (R : List (List ℚ))
    (inv : List (List ℚ) → List (List ℚ)) (log : ℚ → ℚ)
    (Sigma : List (List (List ℚ))) (Y : List (List ℚ)) (x : List ℚ) (t : ℚ)
    (h0 : lmi x = none) (h1 : lmi0 x = none) :
    (2 * ((diagQ R).map log).sum
        + traceQ (matMulQ (matMulQ (inv R) (transposeQ (inv R))) Y) - t ≥ 0 →
      ∃ g, mle_assess_optim lmi lmi0 R inv log Sigma Y x t =
        ((g, 2 * ((diagQ R).map log).sum
            + traceQ (matMulQ (matMulQ (inv R) (transposeQ (inv R))) Y) - t),
          none)) ∧
    (2 * ((diagQ R).map log).sum
        + traceQ (matMulQ (matMulQ (inv R) (transposeQ (inv R))) Y) - t < 0 →
      ∃ g, mle_assess_optim lmi lmi0 R inv log Sigma Y x t =
        ((g, 0),
          some (2 * ((diagQ R).map log).sum
            + traceQ (matMulQ (matMulQ (inv R) (transposeQ (inv R))) Y)))) := by
  unfold mle_assess_optim
  rw [h0, h1]
  constructor
  · intro hge
    exact ⟨_, by rw [if_pos hge]⟩
  · intro hlt
    exact ⟨_, by rw [if_neg (by linarith)]⟩

/-- Witness for C4: both checks pass, `R = [[1]]`, `inv` the identity
function, `log ≡ 0`, `Y = [[1]]`, `x = [0]`, incumbent `t = 0`; then
`f1 = 1` and the ascent branch returns cut value `1` with no incumbent. -/
theorem mle_assess_optim_both_feasible_witness :
    ∃ g, mle_assess_optim (fun _ => none) (fun _ => none) [[1]] (fun M => M)
        (fun _ => 0) [] [[1]] [0] 0 =
      ((g, 2 * ((diagQ [[(1 : ℚ)]]).map (fun _ => (0 : ℚ))).sum
          + traceQ (matMulQ (matMulQ ((fun M => M) [[(1 : ℚ)]])
              (transposeQ ((fun M => M) [[(1 : ℚ)]]))) [[(1 : ℚ)]]) - 0),
        none) := by
  obtain ⟨h, -⟩ :=
    mle_assess_optim_both_feasible (fun _ => none) (fun _ => none) [[1]]
      (fun M => M) (fun _ => 0) [] [[1]] [0] 0 rfl rfl
  exact h (by norm_num [diagQ, traceQ, matMulQ, transposeQ, colQ, rowQ, dotQ,
    entryOf, List.range_succ])

/-- Embedding of `construct_distance_matrix` (corr_oracle.py lines 105-123).
The python code fills `np.zeros((n, n))`: for every `row < col` it computes
`d = np.sqrt(h @ h)` with `h = site[col] - site[row]` and writes it at both
`(row, col)` and `(col, row)`; the diagonal is never written and stays `0`.
The entry formula below is written with `min`/`max` so that one expression
covers the mirrored pair (subtraction order does not change `h @ h`). -/
def construct_distance_matrix (sqrt : ℚ → ℚ) (site : List (List ℚ)) :
    List (List ℚ) :=
  (List.range site.length).map (fun row =>
    (List.range site.length).map (fun col =>
      if row = col then 0
      else
        sqrt (dotQ
          (vsub (site.getD (max row col) []) (site.getD (min row col) []))
          (vsub (site.getD (max row col) []) (site.getD (min row col) [])))))

/-- Elementwise (Hadamard) product `np.multiply(A, B)`. -/
def hadamardQ (A B : List (List ℚ)) : List (List ℚ) :=
  List.zipWith (fun r s => List.zipWith (· * ·) r s) A B

/-- Matrix of ones, `np.ones((n, n))`. -/
def onesQ (n : ℕ) : List (List ℚ) := List.replicate n (List.replicate n 1)

/-- Loop of `construct_poly_matrix` (corr_oracle.py lines 142-144): starting
from the current matrix `D`, repeat `D = np.multiply(D, D1)` and collect the
results. -/
def polyMatAux (D1 : List (List ℚ)) : List (List ℚ) → ℕ → List (List (List ℚ))
  | _, 0 => []
  | D, k + 1 => hadamardQ D D1 :: polyMatAux D1 (hadamardQ D D1) k

/-- Embedding of `construct_poly_matrix` (corr_oracle.py lines 126-145):
`Sigma = [np.ones((n, n))]`, then `m - 1` Hadamard multiplications by the
distance matrix are appended, giving matrices of degree `0 .. m-1` in
distance. -/
def construct_poly_matrix (sqrt : ℚ → ℚ) (site : List (List ℚ)) (m : ℕ) :
    List (List (List ℚ)) :=
  onesQ site.length ::
    polyMatAux (construct_distance_matrix sqrt site) (onesQ site.length) (m - 1)

/-- Evaluation of `np.poly1d(pa)` at `z`: Horner's rule over the
descending-degree coefficient list `pa`. `corr_poly` (corr_oracle.py lines
169-173) builds `pa = a[::-1]`, i.e. it evaluates `poly1d_eval a.reverse`. -/
def poly1d_eval (pa : List ℚ) (z : ℚ) : ℚ :=
  pa.foldl (fun acc c => acc * z + c) 0

/-- Squareness predicate used for shape bookkeeping of the basis matrices. -/
def isSquareN (n : ℕ) (M : List (List ℚ)) : Prop :=
  M.length = n ∧ ∀ r ∈ M, r.length = n

lemma construct_distance_matrix_shape (sqrt : ℚ → ℚ) (site : List (List ℚ)) :
    isSquareN site.length (construct_distance_matrix sqrt site) := by
  constructor
  · simp [construct_distance_matrix]
  · intro r hr
    simp only [construct_distance_matrix, List.mem_map] at hr
    obtain ⟨row, -, rfl⟩ := hr
    simp

lemma onesQ_shape (n : ℕ) : isSquareN n (onesQ n) := by
  constructor
  · simp [onesQ]
  · intro r hr
    simp only [onesQ, List.mem_replicate] at hr
    rw [hr.2]
    simp

lemma hadamardQ_shape (n : ℕ) (A B : List (List ℚ)) (hA : isSquareN n A)
    (hB : isSquareN n B) : isSquareN n (hadamardQ A B) := by
  constructor
  · simp [hadamardQ, hA.1, hB.1]
  · intro r hr
    obtain ⟨i, hilen, rfl⟩ := List.mem_iff_getElem.mp hr
    have hiA : i < A.length := by
      simp only [hadamardQ, List.length_zipWith] at hilen
      omega
    have hiB : i < B.length := by
      simp only [hadamardQ, List.length_zipWith] at hilen
      omega
    have hz : (hadamardQ A B)[i] = List.zipWith (· * ·) A[i] B[i] := by
      unfold hadamardQ
      exact List.getElem_zipWith
    rw [hz, List.length_zipWith, hA.2 A[i] (List.getElem_mem hiA),
      hB.2 B[i] (List.getElem_mem hiB)]
    omega

lemma entryOf_hadamardQ (n : ℕ) (A B : List (List ℚ)) (i j : ℕ)
    (hA : isSquareN n A) (hB : isSquareN n B) (hi : i < n) (hj : j < n) :
    entryOf (hadamardQ A B) i j = entryOf A i j * entryOf B i j := by
  have hiA : i < A.length := hA.1 ▸ hi
  have hiB : i < B.length := hB.1 ▸ hi
  have hiH : i < (hadamardQ A B).length := by
    simpa [hadamardQ, hA.1, hB.1] using hi
  have hjA : j < (A[i]).length := by
    rw [hA.2 A[i] (List.getElem_mem hiA)]
    exact hj
  have hjB : j < (B[i]).length := by
    rw [hB.2 B[i] (List.getElem_mem hiB)]
    exact hj
  unfold entryOf
  rw [List.getD_eq_getElem _ _ hiH, List.getD_eq_getElem _ _ hiA,
    List.getD_eq_getElem _ _ hiB]
  have hz : (hadamardQ A B)[i] = List.zipWith (· * ·) A[i] B[i] := by
    unfold hadamardQ
    exact List.getElem_zipWith
  rw [hz]
  have hjz : j < (List.zipWith (· * ·) A[i] B[i]).length := by
    rw [List.length_zipWith]
    omega
  rw [List.getD_eq_getElem _ _ hjz, List.getD_eq_getElem _ _ hjA,
    List.getD_eq_getElem _ _ hjB]
  exact List.getElem_zipWith

lemma entryOf_onesQ (n i j : ℕ) (hi : i < n) (hj : j < n) :
    entryOf (onesQ n) i j = 1 := by
  unfold entryOf onesQ
  rw [List.getD_eq_getElem (List.replicate n (List.replicate n (1 : ℚ))) []
    (by simpa using hi)]
  rw [List.getElem_replicate]
  rw [List.getD_eq_getElem _ _ (by simpa using hj), List.getElem_replicate]

lemma polyMatAux_shape (n : ℕ) (D1 : List (List ℚ)) (hD1 : isSquareN n D1) :
    ∀ (r : ℕ) (D : List (List ℚ)), isSquareN n D →
      (polyMatAux D1 D r).length = r ∧
      ∀ q, q < r → isSquareN n ((polyMatAux D1 D r).getD q []) := by
  intro r
  induction r with
  | zero =>
    intro D _
    exact ⟨rfl, fun q hq => absurd hq (Nat.not_lt_zero q)⟩
  | succ s ih =>
    intro D hD
    have hD2 : isSquareN n (hadamardQ D D1) := hadamardQ_shape n D D1 hD hD1
    obtain ⟨ihl, ihq⟩ := ih (hadamardQ D D1) hD2
    refine ⟨by simp [polyMatAux, ihl], ?_⟩
    intro q hq
    cases q with
    | zero => exact hD2
    | succ t =>
      show isSquareN n ((polyMatAux D1 (hadamardQ D D1) s).getD t [])
      exact ihq t (by omega)

lemma polyMatAux_entry (n : ℕ) (D1 : List (List ℚ)) (hD1 : isSquareN n D1)
    (i j : ℕ) (hi : i < n) (hj : j < n) :
    ∀ (r q : ℕ) (D : List (List ℚ)), q < r → isSquareN n D →
      entryOf ((polyMatAux D1 D r).getD q []) i j =
        entryOf D i j * entryOf D1 i j ^ (q + 1) := by
  intro r
  induction r with
  | zero =>
    intro q D hq _
    exact absurd hq (Nat.not_lt_zero q)
  | succ s ih =>
    intro q D hq hD
    have hD2 : isSquareN n (hadamardQ D D1) := hadamardQ_shape n D D1 hD hD1
    cases q with
    | zero =>
      show entryOf (hadamardQ D D1) i j = entryOf D i j * entryOf D1 i j ^ 1
      rw [entryOf_hadamardQ n D D1 i j hD hD1 hi hj, pow_one]
    | succ t =>
      show entryOf ((polyMatAux D1 (hadamardQ D D1) s).getD t []) i j =
        entryOf D i j * entryOf D1 i j ^ (t + 2)
      rw [ih t (hadamardQ D D1) (by omega) hD2,
        entryOf_hadamardQ n D D1 i j hD hD1 hi hj]
      ring

lemma construct_poly_matrix_entry (sqrt : ℚ → ℚ) (site : List (List ℚ))
    (m k i j : ℕ) (hk : k < m) (hi : i < site.length) (hj : j < site.length) :
    entryOf ((construct_poly_matrix sqrt site m).getD k []) i j =
      entryOf (construct_distance_matrix sqrt site) i j ^ k := by
  unfold construct_poly_matrix
  cases k with
  | zero =>
    show entryOf (onesQ site.length) i j = _ ^ 0
    rw [entryOf_onesQ site.length i j hi hj, pow_zero]
  | succ t =>
    show entryOf
      ((polyMatAux (construct_distance_matrix sqrt site)
        (onesQ site.length) (m - 1)).getD t []) i j = _ ^ (t + 1)
    rw [polyMatAux_entry site.length (construct_distance_matrix sqrt site)
      (construct_distance_matrix_shape sqrt site) i j hi hj (m - 1) t
      (onesQ site.length) (by omega) (onesQ_shape site.length),
      entryOf_onesQ site.length i j hi hj, one_mul]

lemma poly1d_eval_reverse (a : List ℚ) (z : ℚ) :
    poly1d_eval a.reverse z =
      ∑ k ∈ Finset.range a.length, a.getD k 0 * z ^ k := by
  unfold poly1d_eval
  rw [List.foldl_reverse]
  induction a with
  | nil => simp
  | cons c tl ih =>
    rw [List.foldr_cons, ih]
    rw [List.length_cons, Finset.sum_range_succ']
    have hshift : ∀ k, (c :: tl).getD (k + 1) 0 * z ^ (k + 1) =
        z * (tl.getD k 0 * z ^ k) := by
      intro k
      show tl.getD k 0 * z ^ (k + 1) = z * (tl.getD k 0 * z ^ k)
      ring
    rw [Finset.sum_congr rfl (fun k _ => hshift k), ← Finset.mul_sum]
    show (∑ k ∈ Finset.range tl.length, tl.getD k 0 * z ^ k) * z + c =
      z * (∑ k ∈ Finset.range tl.length, tl.getD k 0 * z ^ k) + c * z ^ 0
    ring

/-- C8: evaluating the polynomial that `corr_poly` reconstructs from the
reversed coefficients (`np.poly1d(a[::-1])`) at the training distance
`D[i][j]` reproduces the basis combination
`Σ_{k < m} a[k] · Σ_{k+1}[i][j]` built by `construct_poly_matrix`
(both sides equal `Σ_k a[k] · D[i][j]^k`). -/
theorem corr_poly_roundtrip (sqrt : ℚ → ℚ) (site : List (List ℚ)) (m : ℕ)
    (a : List ℚ) (i j : ℕ) (ha : a.length = m)
    (hi : i < site.length) (hj : j < site.length) :
    poly1d_eval a.reverse (entryOf (construct_distance_matrix sqrt site) i j) =
      ∑ k ∈ Finset.range m,
        a.getD k 0 *
          entryOf ((construct_poly_matrix sqrt site m).getD k []) i j := by
  rw [poly1d_eval_reverse, ha]
  exact Finset.sum_congr rfl (fun k hk => by
    rw [construct_poly_matrix_entry sqrt site m k i j
      (Finset.mem_range.mp hk) hi hj])

/-- Witness for C8: two one-dimensional sites `[0]` and `[2]`, `m = 2`,
coefficients `a = [3, 5]`, at entry `(0, 1)` of the distance matrix (with
the square-root parameter instantiated as the identity map). -/
theorem corr_poly_roundtrip_witness :
    poly1d_eval ([3, 5] : List ℚ).reverse
        (entryOf (construct_distance_matrix (fun q => q) [[0], [2]]) 0 1) =
      ∑ k ∈ Finset.range 2,
        ([3, 5] : List ℚ).getD k 0 *
          entryOf ((construct_poly_matrix (fun q => q) [[0], [2]] 2).getD k []) 0 1 :=
  corr_poly_roundtrip (fun q => q) [[0], [2]] 2 [3, 5] 0 1 rfl
    (by norm_num) (by norm_num)

/-- Embedding of `np.linspace(a, b, num)` in exact arithmetic: `num` evenly
spaced samples from `a` to `b`, both endpoints included. -/
def linspaceQ (a b : ℚ) (num : ℕ) : List ℚ :=
  (List.range num).map (fun i : ℕ => a + (b - a) * (i : ℚ) / ((num : ℚ) - 1))

/-- Spline degree fixed by `generate_bspline_info` (corr_bspline_oracle.py
line 143): `k = 2` (quadratic bspline). -/
def bsplineDegree : ℕ := 2

/-- Embedding of the knot-vector computation of `generate_bspline_info`
(corr_bspline_oracle.py lines 144-146): `h = site[-1] - site[0]`,
`d = np.sqrt(h @ h)`, `t = np.linspace(0, d * 1.2, m + k + 1)` (the float
literal `1.2` is the exact `12/10` here). The remainder of the function
evaluates scipy `BSpline` basis functions (an external collaborator) on the
distance matrix and plays no part in the knot/degree claims. -/
def bsplineKnots (sqrt : ℚ → ℚ) (site : List (List ℚ)) (m : ℕ) : List ℚ :=
  linspaceQ 0
    (sqrt (dotQ (vsub (site.getLastD []) (site.headD []))
                (vsub (site.getLastD []) (site.headD []))) * (12 / 10))
    (m + bsplineDegree + 1)

/-- Spec-side definition for the refinement comparison in C6 (it follows the
spec's words, not the code): the maximum pairwise Euclidean distance
`max_{i,j} sqrt(‖site[j] - site[i]‖²)` over all site pairs. -/
def maxPairwiseDistSpec (sqrt : ℚ → ℚ) (site : List (List ℚ)) : ℚ :=
  ((List.range site.length).map (fun i =>
    ((List.range site.length).map (fun j =>
      sqrt (dotQ (vsub (site.getD j []) (site.getD i []))
                 (vsub (site.getD j []) (site.getD i []))))).foldr max 0)).foldr
    max 0

/-- Concrete square-root function for the C6 counterexample, correct on
every squared norm occurring among the sites `[[0], [3], [1]]`. -/
def sqrtCE : ℚ → ℚ :=
  fun a => if a = 9 then 3 else if a = 4 then 2 else if a = 1 then 1 else 0

lemma getD_range_map (f : ℕ → ℚ) (n i : ℕ) (hi : i < n) :
    ((List.range n).map f).getD i 0 = f i := by
  rw [List.getD_eq_getElem?_getD, List.getElem?_map, List.getElem?_range hi]
  rfl

/-- C6 counterexample: for the sites `[[0], [3], [1]]` (whose extreme
pairwise distance 3 is attained between the first two sites, while the code
uses `site[-1] - site[0]`, of length 1) and `m = 1`, the computed knot
vector differs from the evenly spaced vector over
`[0, 1.2 · max pairwise distance]` demanded by the claim; the square-root
parameter is exact on every value it is applied to. -/
theorem generate_bspline_info_dmax_counterexample :
    (∀ a ∈ [(0 : ℚ), 1, 4, 9], sqrtCE a * sqrtCE a = a ∧ 0 ≤ sqrtCE a) ∧
    maxPairwiseDistSpec sqrtCE [[0], [3], [1]] = 3 ∧
    bsplineKnots sqrtCE [[0], [3], [1]] 1 ≠
      linspaceQ 0 (maxPairwiseDistSpec sqrtCE [[0], [3], [1]] * (12 / 10))
        (1 + bsplineDegree + 1) := by
  refine ⟨by norm_num [sqrtCE], ?_, ?_⟩
  · norm_num [maxPairwiseDistSpec, sqrtCE, vsub, dotQ, List.range_succ]
  · norm_num [bsplineKnots, linspaceQ, maxPairwiseDistSpec, sqrtCE, vsub,
      dotQ, bsplineDegree, List.range_succ]

/-- C6 as amended: `generate_bspline_info` fixes the spline degree to 2 and
returns exactly `m + 3` knots evenly spaced over `[0, 1.2·d]`, where `d` is
the distance between the **last and the first site** (`site[-1] - site[0]`),
not the maximum pairwise distance. -/
theorem generate_bspline_info_knots_spec (sqrt : ℚ → ℚ)
    (site : List (List ℚ)) (m : ℕ) :
    bsplineDegree = 2 ∧
    (bsplineKnots sqrt site m).length = m + 3 ∧
    ∀ i, i < m + 3 →
      (bsplineKnots sqrt site m).getD i 0 =
        sqrt (dotQ (vsub (site.getLastD []) (site.headD []))
                   (vsub (site.getLastD []) (site.headD []))) * (12 / 10)
          * i / ((m : ℚ) + 2) := by
  refine ⟨rfl, by simp [bsplineKnots, linspaceQ, bsplineDegree], ?_⟩
  intro i hi
  unfold bsplineKnots linspaceQ bsplineDegree
  rw [getD_range_map _ _ _ (by omega)]
  rw [zero_add, sub_zero]
  congr 1
  push_cast
  ring

/-- Witness for C6's amended theorem: sites `[[0], [3], [1]]`, `m = 1`,
knot index 3 — the last knot equals `1.2 · d` with `d = 1`. -/
theorem generate_bspline_info_knots_spec_witness :
    (bsplineKnots sqrtCE [[0], [3], [1]] 1).getD 3 0 =
      sqrtCE (dotQ (vsub ([[(0 : ℚ)], [3], [1]].getLastD [])
                         ([[(0 : ℚ)], [3], [1]].headD []))
                   (vsub ([[(0 : ℚ)], [3], [1]].getLastD [])
                         ([[(0 : ℚ)], [3], [1]].headD []))) * (12 / 10)
        * 3 / ((1 : ℚ) + 2) :=
  ((generate_bspline_info_knots_spec sqrtCE [[0], [3], [1]] 1).2.2 3
    (by norm_num))

/-- C7 counterexample: `construct_distance_matrix` on a single-site input
does not raise — it returns the 1×1 zero matrix (the python loops never
execute and the `np.zeros` allocation is returned as is). -/
theorem construct_distance_matrix_single_site_counterexample :
    construct_distance_matrix (fun q => q) [[0, 0]] = [[0]] := by
  norm_num [construct_distance_matrix, List.range_succ]

lemma vsubQ_self (v : List ℚ) : vsub v v = List.replicate v.length 0 := by
  induction v with
  | nil => rfl
  | cons a tl ih =>
    show (a - a) :: vsub tl tl = List.replicate (tl.length + 1) 0
    rw [ih, sub_self, List.replicate_succ]

lemma dotQ_replicate_zero (n : ℕ) :
    dotQ (List.replicate n (0 : ℚ)) (List.replicate n (0 : ℚ)) = 0 := by
  induction n with
  | zero => rfl
  | succ k ih =>
    rw [List.replicate_succ]
    show (List.zipWith (· * ·) ((0 : ℚ) :: List.replicate k 0)
      ((0 : ℚ) :: List.replicate k 0)).sum = 0
    rw [List.zipWith_cons_cons, List.sum_cons]
    rw [show (0 : ℚ) * 0 = 0 by ring, zero_add]
    exact ih

/-- C7 as amended: degenerate inputs with fewer than 2 distinct sites are
not rejected: for any single-site input, `construct_distance_matrix`
returns the 1×1 zero matrix, and `generate_bspline_info` proceeds and
produces the all-zero knot vector (since `site[-1] - site[0] = 0` and
`np.sqrt(0) = 0`), rather than raising an error. -/
theorem construct_distance_matrix_single_site (sqrt : ℚ → ℚ)
    (site : List (List ℚ)) (m : ℕ) (hn : site.length = 1)
    (hs : sqrt 0 = 0) :
    construct_distance_matrix sqrt site = [[0]] ∧
    bsplineKnots sqrt site m = List.replicate (m + 3) 0 := by
  constructor
  · unfold construct_distance_matrix
    rw [hn]
    norm_num [List.range_succ]
  · obtain ⟨v, hv⟩ : ∃ v, site = [v] := by
      cases site with
      | nil => simp at hn
      | cons a l =>
        cases l with
        | nil => exact ⟨a, rfl⟩
        | cons b l2 => simp at hn
    subst hv
    have hzero : sqrt (dotQ (vsub ([v].getLastD []) ([v].headD []))
        (vsub ([v].getLastD []) ([v].headD []))) * (12 / 10) = 0 := by
      show sqrt (dotQ (vsub v v) (vsub v v)) * (12 / 10) = 0
      rw [vsubQ_self, dotQ_replicate_zero, hs, zero_mul]
    unfold bsplineKnots
    rw [hzero]
    unfold linspaceQ bsplineDegree
    refine List.eq_replicate_iff.mpr ⟨by simp, ?_⟩
    intro b hb
    simp only [List.mem_map, List.mem_range] at hb
    obtain ⟨i, -, rfl⟩ := hb
    norm_num

/-- Witness for C7's amended theorem: the single site `[5, 7]`, `m = 2`,
square root instantiated as the identity map (exact at `0`). -/
theorem construct_distance_matrix_single_site_witness :
    construct_distance_matrix (fun q => q) [[5, 7]] = [[0]] ∧
    bsplineKnots (fun q => q) [[5, 7]] 2 = List.replicate 5 0 :=
  construct_distance_matrix_single_site (fun q => q) [[5, 7]] 2 rfl rfl
